import Mathlib

/-!
# Verification of the sound-monitor audio pipeline

A shallow embedding of the event-detection core of `src/sound_monitor.py`
(class `AudioProcessor`): the decibel computation, the FFT low-frequency
classifier, the pre-event ring buffer, the event state machine of
`_record_loop` / `_finalize_event` / `stop_recording`, and the wind filter.

Machine conventions:
* an audio chunk is its sequence of signed 16-bit samples (`List ℤ`);
* dB levels and timestamps are exact rationals (`ℚ`) standing for the
  floating-point values of the source;
* the per-chunk work of `_record_loop` is a pure step function on an explicit
  state record; emitted signals with no effect on the pipeline state
  (`level_updated`, video frames) are not modelled, and the SQLite insert of
  `log_event` is modelled as appending the event to the `events` log.
-/

namespace SoundMonitor

/-- `CHUNK = 1024`, the number of int16 samples per chunk. -/
def CHUNK : ℕ := 1024

/-- `RATE = 44100`, the default sample rate constant. -/
def RATE : ℚ := 44100

/-- `RECORD_SECONDS = 60`, the archival segment duration. -/
def RECORD_SECONDS : ℚ := 60

/-- An audio chunk, as its int16 samples. -/
abbrev Chunk := List ℤ

/-! ## Ring buffer (lines 470-473 of `_record_loop`)

```python
self.audio_ring_buffer.append(data)
if len(self.audio_ring_buffer) > self.max_ring_buffer_samples:
    self.audio_ring_buffer.pop(0)
```
-/

/-- One push onto the ring buffer: append, then drop the oldest entry if the
length now exceeds the capacity `cap` (`max_ring_buffer_samples`). -/
def ringPush (cap : ℕ) (buf : List Chunk) (c : Chunk) : List Chunk :=
  if cap < (buf ++ [c]).length then (buf ++ [c]).tail else buf ++ [c]

/-- Pushing a whole sequence of chunks, oldest first. -/
def ringPushMany (cap : ℕ) (buf : List Chunk) (cs : List Chunk) : List Chunk :=
  cs.foldl (ringPush cap) buf

/-! ## Event detection state machine (`_record_loop`, `_finalize_event`,
`stop_recording`)

The per-chunk body of `_record_loop` is modelled as a pure step function.  The
chunk's dB level (`db_level = self.calculate_db(data)`) and the wall-clock time
(`datetime.now()`) are carried as input fields, so a run of the machine is a
run on a known sequence of per-chunk dB values, as in the spec's testable
properties.  Signals without effect on the pipeline state (`level_updated`,
`status_updated`, video frames) are not modelled; `save_audio_segment` is
modelled as appending to the `segments` log, and `log_event`'s SQLite insert
plus `event_detected` emission as appending to the `events` log
(`save_audio_segment` failures would only remove insertions). -/

/-- One input to the per-chunk step: the chunk, its computed dB level, and the
wall-clock timestamp of the step. -/
structure StepInput where
  data : Chunk
  db : ℚ
  t : ℚ
deriving DecidableEq

/-- A finalized event as persisted by `log_event` (id, filenames and the
derived `avg_db` / `low_frequency` fields are functions of the stored data
and are kept out of the record). -/
structure Event where
  start_time : ℚ
  duration : ℚ
  peak_db : ℚ
  samples : List Chunk
deriving DecidableEq

/-- The mutable `AudioProcessor` attributes touched by the detection path. -/
structure ProcState where
  threshold_db : ℚ
  device_sample_rate : ℚ
  post_event_buffer_seconds : ℚ
  max_ring_buffer_samples : ℕ
  current_segment : List Chunk
  segments : List (List Chunk)
  audio_ring_buffer : List Chunk
  event_in_progress : Bool
  event_start_time : ℚ
  event_peak_db : ℚ
  event_samples : List Chunk
  events : List Event
deriving DecidableEq

/-- `post_event_samples_needed = int(self.post_event_buffer_seconds *
self.device_sample_rate / CHUNK)` (line 521; `int` truncation = floor for the
nonnegative values involved). -/
def postEventSamplesNeeded (s : ProcState) : ℕ :=
  (Rat.floor (s.post_event_buffer_seconds * s.device_sample_rate / (CHUNK : ℚ))).toNat

/-- `_finalize_event` (lines 533-588): discard silently when the duration is
under 0.1 s, otherwise persist the event; either way the detector returns to
idle.  `event_peak_db` is left as is, exactly as in the source. -/
def finalizeEvent (now : ℚ) (s : ProcState) : ProcState :=
  if s.event_in_progress = false then s
  else
    let duration := now - s.event_start_time
    if duration < 0.1 then
      { s with event_in_progress := false, event_samples := [] }
    else
      { s with
        events := s.events ++
          [{ start_time := s.event_start_time, duration := duration,
             peak_db := s.event_peak_db, samples := s.event_samples }],
        event_in_progress := false,
        event_samples := [] }

/-- Lines 468-484 of `_record_loop`: append the chunk to the current archival
segment, push it onto the pre-event ring buffer, and flush the segment once it
holds `RECORD_SECONDS` of audio at the device sample rate. -/
def bookkeeping (i : StepInput) (s : ProcState) : ProcState :=
  let seg := s.current_segment ++ [i.data]
  let rb := ringPush s.max_ring_buffer_samples s.audio_ring_buffer i.data
  if s.device_sample_rate * RECORD_SECONDS ≤ ((seg.length * CHUNK : ℕ) : ℚ) then
    { s with current_segment := [], segments := s.segments ++ [seg],
             audio_ring_buffer := rb }
  else
    { s with current_segment := seg, audio_ring_buffer := rb }

/-- Lines 486-525 of `_record_loop`: the event-detection branch.  `pc` is the
loop-local `post_event_counter`.  On an `IDLE` to `ACTIVE` crossing the event
samples are seeded from the ring buffer as updated earlier in the same
iteration (line 471), so they contain the crossing chunk twice, exactly as in
the source. -/
def detectStep (i : StepInput) (pc : ℕ) (s : ProcState) : ℕ × ProcState :=
  if s.threshold_db ≤ i.db then
    if s.event_in_progress = false then
      (0, { s with
        event_in_progress := true,
        event_start_time := i.t,
        event_peak_db := i.db,
        event_samples := s.audio_ring_buffer ++ [i.data] })
    else
      (0, { s with
        event_peak_db := max s.event_peak_db i.db,
        event_samples := s.event_samples ++ [i.data] })
  else
    if s.event_in_progress then
      let s' := { s with event_samples := s.event_samples ++ [i.data] }
      if postEventSamplesNeeded s' ≤ pc + 1 then
        (0, finalizeEvent i.t s')
      else
        (pc + 1, s')
    else
      (pc, s)

/-- One full iteration of `_record_loop` for one chunk. -/
def processChunk (i : StepInput) (st : ℕ × ProcState) : ℕ × ProcState :=
  detectStep i st.1 (bookkeeping i st.2)

/-- Running `_record_loop` over a list of chunk inputs. -/
def runLoop (inputs : List StepInput) (st : ℕ × ProcState) : ℕ × ProcState :=
  inputs.foldl (fun acc i => processChunk i acc) st

/-- `stop_recording` (lines 424-449), restricted to the modelled state: save
any remaining archival segment, then force-finalize an ongoing event. -/
def stopRecording (now : ℚ) (s : ProcState) : ProcState :=
  let s' := if s.current_segment = [] then s
            else { s with segments := s.segments ++ [s.current_segment] }
  if s'.event_in_progress then finalizeEvent now s' else s'

/-! ## Level computation (`calculate_db`, lines 297-312) -/

/-- RMS of a chunk: `np.sqrt(np.mean(audio_array.astype(np.float64)**2))`
(line 304), with the int16 samples upcast before squaring. -/
noncomputable def rms (samples : List ℤ) : ℝ :=
  Real.sqrt ((samples.map (fun v => ((v : ℝ)) ^ 2)).sum / samples.length)

/-- `calculate_db` (lines 297-312): 0 for an empty chunk, 0 when RMS < 1,
otherwise `20*log10(rms/32768) + 94 + calibration_offset` clamped below at 0
(`return max(0, db)`). -/
noncomputable def calculate_db (calibration_offset : ℝ) (samples : List ℤ) : ℝ :=
  if samples.length = 0 then 0
  else if rms samples < 1 then 0
  else max 0 (20 * Real.logb 10 (rms samples / 32768) + 94 + calibration_offset)

/-- §4.1 of the spec, stated in its own words, for comparison with
`calculate_db`: "If the chunk is empty or RMS < 1, returns 0 ... Otherwise
returns `20·log10(RMS / 32768) + 94 + calibration_offset`, clamped to a
minimum of 0". -/
noncomputable def calculate_db_spec (calibration_offset : ℝ) (samples : List ℤ) : ℝ :=
  if samples = [] ∨ rms samples < 1 then 0
  else max 0 (20 * Real.logb 10 (rms samples / 32768) + 94 + calibration_offset)

/-! ## FFT low-frequency classifier (`detect_low_frequency`, lines 314-332) -/

/-- Bin `k` of numpy's real FFT of a real signal `x`:
`∑ n, x[n]·exp(-2πi·k·n/N)`. -/
noncomputable def rfftBin (x : List ℝ) (k : ℕ) : ℂ :=
  ∑ n in Finset.range x.length,
    (x.getD n 0 : ℂ)
      * Complex.exp (-(2 * Real.pi * Complex.I * k * n) / x.length)

/-- Number of output bins of `np.fft.rfft` on `N` samples: `N // 2 + 1`. -/
def rfftBins (N : ℕ) : ℕ := N / 2 + 1

/-- `np.fft.rfftfreq(N, 1/sr)[k] = k·sr/N`, the frequency of bin `k`. -/
def rfftFreq (sr : ℚ) (N k : ℕ) : ℚ := k * sr / N

/-- `low_freq_energy` (lines 322-324): sum of squared magnitudes over the
bins whose frequency lies in `[20, 200]` Hz. -/
noncomputable def lowFreqEnergy (sr : ℚ) (samples : List ℤ) : ℝ :=
  ∑ k in (Finset.range (rfftBins samples.length)).filter
      (fun k => 20 ≤ rfftFreq sr samples.length k ∧ rfftFreq sr samples.length k ≤ 200),
    Complex.abs (rfftBin (samples.map (fun v => (v : ℝ))) k) ^ 2

/-- `total_energy` (line 327): sum of squared magnitudes over all bins. -/
noncomputable def totalEnergy (samples : List ℤ) : ℝ :=
  ∑ k in Finset.range (rfftBins samples.length),
    Complex.abs (rfftBin (samples.map (fun v => (v : ℝ))) k) ^ 2

open Classical in
/-- `detect_low_frequency` (lines 314-332).  `np.fft.rfft` raises
`ValueError` on zero-length input ("Invalid number of FFT data points"),
modelled as `none`; on nonempty input the source returns
`low_freq_energy / total_energy > 0.4` when `total_energy > 0` and `False`
otherwise. -/
noncomputable def detect_low_frequency (sr : ℚ) (samples : List ℤ) : Option Bool :=
  if samples = [] then none
  else if 0 < totalEnergy samples then
    some (if (0.4 : ℝ) < lowFreqEnergy sr samples / totalEnergy samples
          then true else false)
  else some false

/-! ## Ring-buffer capacity (line 97 of `__init__`) -/

/-- `self.pre_event_buffer_seconds = 2` (line 94). -/
def preEventBufferSeconds : ℚ := 2

/-- `self.max_ring_buffer_samples = int(self.pre_event_buffer_seconds * RATE /
CHUNK)` (line 97): computed once at construction from the constant
`RATE = 44100` (`int` truncation = floor for the positive value involved);
`set_device` (lines 281-287) updates `device_sample_rate` but never this
capacity. -/
def max_ring_buffer_samples : ℤ :=
  ⌊preEventBufferSeconds * RATE / (CHUNK : ℚ)⌋

/-- Modelled from the spec (§3, data model): "RingBuffer: ... capacity =
ceil(pre_event_seconds × sample_rate / chunk_size)", for comparison with the
source's `max_ring_buffer_samples`. -/
def ringCapacitySpec (pre sample_rate chunk_size : ℚ) : ℤ :=
  ⌈pre * sample_rate / chunk_size⌉

/-! ## Wind filter -/

/-- Modelled from the spec: `AudioProcessor.apply_wind_filter` is called by
`test_wind_filter.py` and `demo_wind_filter.py` but is absent from
`src/sound_monitor.py` (the variant of the module in this tree has no wind
filter methods).  Spec §4.5: "Stateless transform: `apply(chunk_or_buffer,
enabled, cutoff_hz) -> same-shaped audio`. When disabled, returns input
unchanged (byte-identical). When enabled, applies a high-pass filter with the
configured cutoff" whose exact family is an implementation choice, so the
enabled branch is an arbitrary transform parameter `hp`. -/
def apply_wind_filter (hp : ℚ → List ℤ → List ℤ) (enabled : Bool) (cutoff_hz : ℚ)
    (x : List ℤ) : List ℤ :=
  if enabled then hp cutoff_hz x else x

/-! ## Concrete states used to instantiate the theorems -/

/-- A small concrete processor state: threshold 50 dB, device rate 1024 Hz and
2 s of post-roll, so that `postEventSamplesNeeded = 2`; ring capacity 2. -/
def testState : ProcState :=
  { threshold_db := 50, device_sample_rate := 1024, post_event_buffer_seconds := 2,
    max_ring_buffer_samples := 2, current_segment := [], segments := [],
    audio_ring_buffer := [], event_in_progress := false, event_start_time := 0,
    event_peak_db := 0, event_samples := [], events := [] }

/-- `testState` with an event open since time 0 at peak 60 dB. -/
def openState : ProcState :=
  { testState with
    event_in_progress := true, event_peak_db := 60,
    event_samples := [[1]], current_segment := [[1]] }

/-- A burst input sequence: a crossing chunk at 60 dB, one at 70 dB, then two
sub-threshold chunks that exhaust the 2-chunk post-roll of `testState`. -/
def burstInputs : List StepInput :=
  [⟨[1], 60, 0⟩, ⟨[2], 70, 1⟩, ⟨[3], 0, 2⟩, ⟨[4], 0, 3⟩]

/-- The event that running `burstInputs` from `testState` finalizes. -/
def burstEvent : Event :=
  { start_time := 0, duration := 3, peak_db := 70,
    samples := [[1], [1], [2], [3], [4]] }

theorem ringPush_eq_drop (cap : ℕ) (buf : List Chunk) (c : Chunk)
    (h : buf.length ≤ cap) :
    ringPush cap buf c = (buf ++ [c]).drop (buf.length + 1 - cap) := by
  unfold ringPush
  by_cases hc : cap < (buf ++ [c]).length
  · have h1 : buf.length + 1 - cap = 1 := by
      simp only [List.length_append, List.length_singleton] at hc
      omega
    rw [if_pos hc, h1, List.drop_one]
  · have h1 : buf.length + 1 - cap = 0 := by
      simp only [List.length_append, List.length_singleton] at hc
      omega
    rw [if_neg hc, h1, List.drop_zero]

theorem ringPush_length (cap : ℕ) (buf : List Chunk) (c : Chunk)
    (h : buf.length ≤ cap) :
    (ringPush cap buf c).length = min (buf.length + 1) cap := by
  rw [ringPush_eq_drop cap buf c h]
  simp only [List.length_drop, List.length_append, List.length_singleton]
  omega

theorem ringPushMany_eq_drop (cs : List Chunk) :
    ∀ (cap : ℕ) (buf : List Chunk), buf.length ≤ cap →
    ringPushMany cap buf cs = (buf ++ cs).drop (buf.length + cs.length - cap) := by
  induction cs with
  | nil =>
    intro cap buf h
    simp only [ringPushMany, List.foldl_nil, List.length_nil, Nat.add_zero,
      List.append_nil]
    rw [Nat.sub_eq_zero_of_le h, List.drop_zero]
  | cons c cs ih =>
    intro cap buf h
    have hstep : ringPushMany cap buf (c :: cs)
        = ringPushMany cap (ringPush cap buf c) cs := by
      simp [ringPushMany, List.foldl_cons]
    have hlen : (ringPush cap buf c).length ≤ cap := by
      rw [ringPush_length cap buf c h]; omega
    rw [hstep, ih cap (ringPush cap buf c) hlen,
        ringPush_length cap buf c h, ringPush_eq_drop cap buf c h]
    have hd : buf.length + 1 - cap ≤ (buf ++ [c]).length := by
      simp only [List.length_append, List.length_singleton]
      omega
    rw [← List.drop_append_of_le_length hd, List.drop_drop, List.append_assoc,
        List.singleton_append]
    congr 1
    simp only [List.length_cons]
    omega

/-- C5: from any ring-buffer state satisfying the length invariant, pushing
`capacity + k` chunks leaves exactly the last `capacity` chunks pushed, in
original relative order; a single push keeps the length within capacity, and a
push onto a full (nonempty) buffer evicts exactly the single oldest entry. -/
theorem ringBuffer_last_capacity (cap k : ℕ) (buf cs : List Chunk) (c : Chunk)
    (hinv : buf.length ≤ cap) (hlen : cs.length = cap + k) :
    ringPushMany cap buf cs = cs.drop k
    ∧ (ringPush cap buf c).length ≤ cap
    ∧ (buf.length = cap → buf ≠ [] → ringPush cap buf c = buf.tail ++ [c]) := by
  refine ⟨?_, ?_, ?_⟩
  · rw [ringPushMany_eq_drop cs cap buf hinv]
    have hidx : buf.length + cs.length - cap = buf.length + k := by omega
    rw [hidx]
    exact List.drop_append k
  · rw [ringPush_length cap buf c hinv]
    omega
  · intro hfull hne
    unfold ringPush
    have hc : cap < (buf ++ [c]).length := by
      simp only [List.length_append, List.length_singleton]
      omega
    rw [if_pos hc]
    cases buf with
    | nil => exact absurd rfl hne
    | cons b bs => simp

/-- Concrete instance of C5: capacity 2, pushing 3 chunks into an empty buffer
keeps exactly the last 2. -/
theorem ringBuffer_last_capacity_witness :
    ringPushMany 2 [] [[1], [2], [3]] = [[1], [2], [3]].drop 1
    ∧ (ringPush 2 [] [0]).length ≤ 2
    ∧ (List.length ([] : List Chunk) = 2 → ([] : List Chunk) ≠ []
        → ringPush 2 [] [0] = List.tail ([] : List Chunk) ++ [[0]]) :=
  ringBuffer_last_capacity 2 1 [] [[1], [2], [3]] [0] (by decide) (by decide)

/-- `post_event_samples_needed` reads only the configured seconds and the
device sample rate. -/
@[simp] lemma postEventSamplesNeeded_mk
    (a1 a2 a3 : ℚ) (a4 : ℕ) (a5 : List Chunk) (a6 : List (List Chunk))
    (a7 : List Chunk) (a8 : Bool) (a9 a10 : ℚ) (a11 : List Chunk)
    (a12 : List Event) :
    postEventSamplesNeeded ⟨a1, a2, a3, a4, a5, a6, a7, a8, a9, a10, a11, a12⟩
      = (Rat.floor (a3 * a2 / (CHUNK : ℚ))).toNat := rfl

/-! ### Step lemmas -/

@[simp] lemma runLoop_nil (st : ℕ × ProcState) : runLoop [] st = st := rfl

@[simp] lemma runLoop_cons (i : StepInput) (is : List StepInput)
    (st : ℕ × ProcState) : runLoop (i :: is) st = runLoop is (processChunk i st) := rfl

@[simp] lemma bookkeeping_threshold (i : StepInput) (s : ProcState) :
    (bookkeeping i s).threshold_db = s.threshold_db := by
  simp only [bookkeeping]; split <;> rfl

@[simp] lemma bookkeeping_in_progress (i : StepInput) (s : ProcState) :
    (bookkeeping i s).event_in_progress = s.event_in_progress := by
  simp only [bookkeeping]; split <;> rfl

@[simp] lemma bookkeeping_peak (i : StepInput) (s : ProcState) :
    (bookkeeping i s).event_peak_db = s.event_peak_db := by
  simp only [bookkeeping]; split <;> rfl

@[simp] lemma bookkeeping_start (i : StepInput) (s : ProcState) :
    (bookkeeping i s).event_start_time = s.event_start_time := by
  simp only [bookkeeping]; split <;> rfl

@[simp] lemma bookkeeping_events (i : StepInput) (s : ProcState) :
    (bookkeeping i s).events = s.events := by
  simp only [bookkeeping]; split <;> rfl

@[simp] lemma bookkeeping_event_samples (i : StepInput) (s : ProcState) :
    (bookkeeping i s).event_samples = s.event_samples := by
  simp only [bookkeeping]; split <;> rfl

@[simp] lemma finalizeEvent_threshold (now : ℚ) (s : ProcState) :
    (finalizeEvent now s).threshold_db = s.threshold_db := by
  simp only [finalizeEvent]; split
  · rfl
  · split <;> rfl

@[simp] lemma finalizeEvent_peak (now : ℚ) (s : ProcState) :
    (finalizeEvent now s).event_peak_db = s.event_peak_db := by
  simp only [finalizeEvent]; split
  · rfl
  · split <;> rfl

@[simp] lemma finalizeEvent_not_in_progress (now : ℚ) (s : ProcState) :
    (finalizeEvent now s).event_in_progress = false := by
  simp only [finalizeEvent]; split
  · simpa using ‹s.event_in_progress = false›
  · split <;> rfl

lemma finalizeEvent_events (now : ℚ) (s : ProcState) :
    ∀ e ∈ (finalizeEvent now s).events,
      e ∈ s.events ∨ (s.event_in_progress = true ∧ e.peak_db = s.event_peak_db) := by
  intro e he
  simp only [finalizeEvent] at he
  rcases h : s.event_in_progress with _ | _
  · rw [h] at he; simp at he; exact Or.inl he
  · rw [h] at he
    simp only [Bool.true_eq_false, if_false] at he
    split at he
    · exact Or.inl he
    · simp only [List.mem_append, List.mem_singleton] at he
      rcases he with he | he
      · exact Or.inl he
      · exact Or.inr ⟨rfl, by rw [he]⟩

/-- The `IDLE → ACTIVE` crossing branch (lines 488-499). -/
lemma detectStep_open_new (i : StepInput) (pc : ℕ) (s : ProcState)
    (h1 : s.threshold_db ≤ i.db) (h2 : s.event_in_progress = false) :
    detectStep i pc s = (0, { s with
      event_in_progress := true,
      event_start_time := i.t,
      event_peak_db := i.db,
      event_samples := s.audio_ring_buffer ++ [i.data] }) := by
  simp [detectStep, h1, h2]

/-- The `ACTIVE` (or `POST_ROLL`) continuation branch for a supra-threshold
chunk (lines 500-509). -/
lemma detectStep_continue (i : StepInput) (pc : ℕ) (s : ProcState)
    (h1 : s.threshold_db ≤ i.db) (h2 : s.event_in_progress = true) :
    detectStep i pc s = (0, { s with
      event_peak_db := max s.event_peak_db i.db,
      event_samples := s.event_samples ++ [i.data] }) := by
  simp [detectStep, h1, h2]

/-- The post-roll branch for a sub-threshold chunk while an event is open,
when the post-event counter has not yet reached the needed count
(lines 511-522). -/
lemma detectStep_post_wait (i : StepInput) (pc : ℕ) (s : ProcState)
    (h1 : i.db < s.threshold_db) (h2 : s.event_in_progress = true)
    (h3 : pc + 1 < postEventSamplesNeeded s) :
    detectStep i pc s
      = (pc + 1, { s with event_samples := s.event_samples ++ [i.data] }) := by
  have h3' : ¬ (postEventSamplesNeeded
      { s with event_samples := s.event_samples ++ [i.data] } ≤ pc + 1) :=
    not_le.mpr h3
  unfold detectStep
  rw [if_neg (not_le.mpr h1), if_pos h2]
  dsimp only
  rw [if_neg h3']

/-- The post-roll-expiry branch: the post-event counter reaches the needed
count and the event is finalized (lines 522-525). -/
lemma detectStep_post_finalize (i : StepInput) (pc : ℕ) (s : ProcState)
    (h1 : i.db < s.threshold_db) (h2 : s.event_in_progress = true)
    (h3 : postEventSamplesNeeded s ≤ pc + 1) :
    detectStep i pc s
      = (0, finalizeEvent i.t { s with event_samples := s.event_samples ++ [i.data] }) := by
  have h3' : postEventSamplesNeeded
      { s with event_samples := s.event_samples ++ [i.data] } ≤ pc + 1 := h3
  unfold detectStep
  rw [if_neg (not_le.mpr h1), if_pos h2]
  dsimp only
  rw [if_pos h3']

/-- A sub-threshold chunk with no event in progress leaves the detection
state untouched (the final `else` of lines 486-525). -/
lemma detectStep_idle_sub (i : StepInput) (pc : ℕ) (s : ProcState)
    (h1 : i.db < s.threshold_db) (h2 : s.event_in_progress = false) :
    detectStep i pc s = (pc, s) := by
  simp [detectStep, not_le.mpr h1, h2]

lemma detectStep_threshold (i : StepInput) (pc : ℕ) (s : ProcState) :
    ((detectStep i pc s).2).threshold_db = s.threshold_db := by
  rcases lt_or_le i.db s.threshold_db with h1 | h1 <;>
    cases h2 : s.event_in_progress
  · rw [detectStep_idle_sub i pc s h1 h2]
  · rcases lt_or_le (pc + 1) (postEventSamplesNeeded s) with h3 | h3
    · rw [detectStep_post_wait i pc s h1 h2 h3]
    · rw [detectStep_post_finalize i pc s h1 h2 h3]
      simp
  · rw [detectStep_open_new i pc s h1 h2]
  · rw [detectStep_continue i pc s h1 h2]

lemma detectStep_events (i : StepInput) (pc : ℕ) (s : ProcState) :
    ∀ e ∈ ((detectStep i pc s).2).events,
      e ∈ s.events ∨ (s.event_in_progress = true ∧ e.peak_db = s.event_peak_db) := by
  intro e he
  rcases lt_or_le i.db s.threshold_db with h1 | h1 <;>
    cases h2 : s.event_in_progress
  · rw [detectStep_idle_sub i pc s h1 h2] at he
    exact Or.inl he
  · rcases lt_or_le (pc + 1) (postEventSamplesNeeded s) with h3 | h3
    · rw [detectStep_post_wait i pc s h1 h2 h3] at he
      exact Or.inl he
    · rw [detectStep_post_finalize i pc s h1 h2 h3] at he
      rcases finalizeEvent_events i.t _ e he with h' | ⟨_, hp⟩
      · exact Or.inl h'
      · exact Or.inr ⟨by rfl, hp⟩
  · rw [detectStep_open_new i pc s h1 h2] at he
    exact Or.inl he
  · rw [detectStep_continue i pc s h1 h2] at he
    exact Or.inl he

lemma detectStep_inv (i : StepInput) (pc : ℕ) (s : ProcState)
    (h : s.event_in_progress = true → s.threshold_db ≤ s.event_peak_db) :
    ((detectStep i pc s).2).event_in_progress = true →
      s.threshold_db ≤ ((detectStep i pc s).2).event_peak_db := by
  intro hopen
  rcases lt_or_le i.db s.threshold_db with h1 | h1 <;>
    cases h2 : s.event_in_progress
  · rw [detectStep_idle_sub i pc s h1 h2] at hopen ⊢
    exact h hopen
  · rcases lt_or_le (pc + 1) (postEventSamplesNeeded s) with h3 | h3
    · rw [detectStep_post_wait i pc s h1 h2 h3]
      exact h h2
    · rw [detectStep_post_finalize i pc s h1 h2 h3] at hopen
      simp at hopen
  · rw [detectStep_open_new i pc s h1 h2]
    exact h1
  · rw [detectStep_continue i pc s h1 h2]
    exact le_trans (h h2) (le_max_left _ _)

/-! ### Run-level lemmas -/

lemma processChunk_threshold (i : StepInput) (st : ℕ × ProcState) :
    ((processChunk i st).2).threshold_db = st.2.threshold_db := by
  unfold processChunk
  rw [detectStep_threshold, bookkeeping_threshold]

lemma stopRecording_eq (now : ℚ) (s : ProcState)
    (hopen : s.event_in_progress = true) :
    stopRecording now s = finalizeEvent now
      (if s.current_segment = [] then s
       else { s with segments := s.segments ++ [s.current_segment] }) := by
  unfold stopRecording
  by_cases hcs : s.current_segment = []
  · simp only [if_pos hcs]
    rw [if_pos hopen]
  · simp only [if_neg hcs]
    rw [if_pos (show ProcState.event_in_progress
      { s with segments := s.segments ++ [s.current_segment] } = true from hopen)]

lemma runLoop_idle_sub (inputs : List StepInput) : ∀ st : ℕ × ProcState,
    st.2.event_in_progress = false →
    (∀ i ∈ inputs, i.db < st.2.threshold_db) →
    (runLoop inputs st).2.events = st.2.events ∧
    (runLoop inputs st).2.event_in_progress = false := by
  induction inputs with
  | nil => exact fun st h1 _ => ⟨rfl, h1⟩
  | cons i is ih =>
    intro st h1 h2
    have hb1 : (bookkeeping i st.2).event_in_progress = false := by
      rw [bookkeeping_in_progress]; exact h1
    have hb2 : i.db < (bookkeeping i st.2).threshold_db := by
      rw [bookkeeping_threshold]; exact h2 i (List.mem_cons_self i is)
    have hstep : processChunk i st = (st.1, bookkeeping i st.2) := by
      unfold processChunk
      exact detectStep_idle_sub i st.1 (bookkeeping i st.2) hb2 hb1
    rw [runLoop_cons, hstep]
    have hrest : ∀ j ∈ is,
        j.db < ((st.1, bookkeeping i st.2) : ℕ × ProcState).2.threshold_db := by
      intro j hj
      rw [show ((st.1, bookkeeping i st.2) : ℕ × ProcState).2.threshold_db
          = st.2.threshold_db from bookkeeping_threshold i st.2]
      exact h2 j (List.mem_cons_of_mem i hj)
    have hres := ih (st.1, bookkeeping i st.2) hb1 hrest
    exact ⟨hres.1.trans (bookkeeping_events i st.2), hres.2⟩

lemma runLoop_events_bound (inputs : List StepInput) : ∀ st : ℕ × ProcState,
    (st.2.event_in_progress = true → st.2.threshold_db ≤ st.2.event_peak_db) →
    ∀ e ∈ (runLoop inputs st).2.events,
      e ∈ st.2.events ∨ st.2.threshold_db ≤ e.peak_db := by
  induction inputs with
  | nil => exact fun st _ e he => Or.inl he
  | cons i is ih =>
    intro st hinv e he
    rw [runLoop_cons] at he
    have hb : (bookkeeping i st.2).event_in_progress = true →
        (bookkeeping i st.2).threshold_db ≤ (bookkeeping i st.2).event_peak_db := by
      rw [bookkeeping_in_progress, bookkeeping_threshold, bookkeeping_peak]
      exact hinv
    have hinv' : (processChunk i st).2.event_in_progress = true →
        (processChunk i st).2.threshold_db ≤ (processChunk i st).2.event_peak_db := by
      intro ho
      rw [processChunk_threshold]
      have hstep := detectStep_inv i st.1 (bookkeeping i st.2) hb ho
      rw [bookkeeping_threshold] at hstep
      exact hstep
    rcases ih (processChunk i st) hinv' e he with h' | h'
    · rcases detectStep_events i st.1 (bookkeeping i st.2) e h' with h'' | ⟨hop, hpk⟩
      · left
        rw [bookkeeping_events] at h''
        exact h''
      · right
        rw [bookkeeping_in_progress] at hop
        rw [bookkeeping_peak] at hpk
        rw [hpk]
        exact hinv hop
    · right
      rw [processChunk_threshold] at h'
      exact h'

/-! ### Claims about the event detector -/

/-- C1: over any run of the recording loop in which every chunk's dB level is
strictly below the threshold, starting from an idle detector, no event is ever
opened and no event is ever inserted or emitted: after every prefix of the
input sequence the persisted-events log is unchanged and the detector is still
idle. -/
theorem noEvent_all_below_threshold (s : ProcState) (pc n : ℕ)
    (inputs : List StepInput)
    (hidle : s.event_in_progress = false)
    (hsub : ∀ i ∈ inputs, i.db < s.threshold_db) :
    (runLoop (inputs.take n) (pc, s)).2.events = s.events ∧
    (runLoop (inputs.take n) (pc, s)).2.event_in_progress = false :=
  runLoop_idle_sub (inputs.take n) (pc, s) hidle
    (fun i hi => hsub i (List.take_subset n inputs hi))

/-- Concrete instance of C1: two sub-threshold chunks produce no event. -/
theorem noEvent_all_below_threshold_witness :
    (runLoop (List.take 2 [⟨[1], 10, 0⟩, ⟨[2], 20, 1⟩])
        (0, testState)).2.events = testState.events ∧
    (runLoop (List.take 2 [⟨[1], 10, 0⟩, ⟨[2], 20, 1⟩])
        (0, testState)).2.event_in_progress = false :=
  noEvent_all_below_threshold testState 0 2 [⟨[1], 10, 0⟩, ⟨[2], 20, 1⟩] rfl
    (by intro i hi; fin_cases hi <;> norm_num [testState])

/-- C2: when `_finalize_event` runs on an open event whose computed duration
`now - start_time` is under 0.1 s, the event is discarded silently: the
persisted-events log is unchanged (zero persistence calls), the accumulated
samples are dropped and the detector returns to idle; the same holds for the
forced finalize performed by `stop_recording`. -/
theorem shortEvent_discarded (now : ℚ) (s : ProcState)
    (hopen : s.event_in_progress = true)
    (hshort : now - s.event_start_time < 0.1) :
    (finalizeEvent now s).events = s.events
    ∧ (finalizeEvent now s).event_in_progress = false
    ∧ (finalizeEvent now s).event_samples = []
    ∧ (stopRecording now s).events = s.events
    ∧ (stopRecording now s).event_in_progress = false := by
  have hfin : ∀ s₂ : ProcState, s₂.event_in_progress = true →
      now - s₂.event_start_time < 0.1 →
      finalizeEvent now s₂
        = { s₂ with event_in_progress := false, event_samples := [] } := by
    intro s₂ h1 h2
    unfold finalizeEvent
    rw [if_neg (by simp [h1])]
    dsimp only
    rw [if_pos h2]
  have h1 := hfin s hopen hshort
  refine ⟨by rw [h1], by rw [h1], by rw [h1], ?_, ?_⟩
  · rw [stopRecording_eq now s hopen]
    by_cases hcs : s.current_segment = []
    · rw [if_pos hcs, h1]
    · rw [if_neg hcs,
        hfin { s with segments := s.segments ++ [s.current_segment] } hopen hshort]
  · rw [stopRecording_eq now s hopen]
    exact finalizeEvent_not_in_progress now _

/-- Concrete instance of C2: an event of duration 0.05 s is discarded. -/
theorem shortEvent_discarded_witness :
    (finalizeEvent 0.05 openState).events = openState.events
    ∧ (finalizeEvent 0.05 openState).event_in_progress = false
    ∧ (finalizeEvent 0.05 openState).event_samples = []
    ∧ (stopRecording 0.05 openState).events = openState.events
    ∧ (stopRecording 0.05 openState).event_in_progress = false :=
  shortEvent_discarded 0.05 openState rfl (by norm_num [openState, testState])

/-- C10: every event that the recording loop inserts into the persistence
store, starting from an idle detector, has `peak_db` at least the (run-wide)
threshold: `peak_db` is seeded with the crossing chunk's dB level, which met
the threshold, and is only ever increased afterwards. -/
theorem insertedEvent_peak_ge_threshold (s : ProcState) (pc : ℕ)
    (inputs : List StepInput) (e : Event)
    (hidle : s.event_in_progress = false)
    (hmem : e ∈ (runLoop inputs (pc, s)).2.events) :
    e ∈ s.events ∨ s.threshold_db ≤ e.peak_db :=
  runLoop_events_bound inputs (pc, s)
    (fun h => absurd (hidle ▸ h) (by decide)) e hmem

/-- Concrete instance of C10: the event produced by a 60-70 dB burst against a
50 dB threshold has peak 70 ≥ 50. -/
theorem insertedEvent_peak_ge_threshold_witness :
    burstEvent ∈ testState.events
    ∨ testState.threshold_db ≤ burstEvent.peak_db :=
  insertedEvent_peak_ge_threshold testState 0 burstInputs burstEvent rfl
    (by norm_num [runLoop, processChunk, detectStep, bookkeeping, finalizeEvent,
      ringPush, postEventSamplesNeeded, CHUNK, RECORD_SECONDS, testState,
      burstInputs, burstEvent, Rat.floor])

/-! ### C4: the recorded peak is the maximum dB over the event span -/

lemma foldl_max_spec (a : ℚ) (l : List ℚ) :
    List.foldl max a l ∈ a :: l ∧ ∀ x ∈ a :: l, x ≤ List.foldl max a l := by
  induction l generalizing a with
  | nil => simp
  | cons b l ih =>
    have h1 := ih (max a b)
    constructor
    · rw [List.foldl_cons]
      rcases List.mem_cons.mp h1.1 with h | h
      · rcases max_choice a b with hm | hm
        · rw [h, hm]; exact List.mem_cons_self _ _
        · rw [h, hm]; exact List.mem_cons_of_mem _ (List.mem_cons_self _ _)
      · exact List.mem_cons_of_mem _ (List.mem_cons_of_mem _ h)
    · intro x hx
      rw [List.foldl_cons]
      rcases List.mem_cons.mp hx with rfl | hx'
      · exact le_trans (le_max_left x b) (h1.2 _ (List.mem_cons_self _ _))
      · rcases List.mem_cons.mp hx' with rfl | hx''
        · exact le_trans (le_max_right a x) (h1.2 _ (List.mem_cons_self _ _))
        · exact h1.2 x (List.mem_cons_of_mem _ hx'')

/-- A step on an open event that leaves the event open keeps the persisted
events unchanged and updates the peak to `max peak db`. -/
lemma step_open_open (i : StepInput) (st : ℕ × ProcState)
    (hopen : st.2.event_in_progress = true)
    (hpk : st.2.threshold_db ≤ st.2.event_peak_db)
    (hopen' : (processChunk i st).2.event_in_progress = true) :
    (processChunk i st).2.events = st.2.events
    ∧ (processChunk i st).2.event_peak_db = max st.2.event_peak_db i.db := by
  have hb : (bookkeeping i st.2).event_in_progress = true := by
    rw [bookkeeping_in_progress]; exact hopen
  unfold processChunk at hopen' ⊢
  rcases lt_or_le i.db (bookkeeping i st.2).threshold_db with h1 | h1
  · rcases lt_or_le (st.1 + 1) (postEventSamplesNeeded (bookkeeping i st.2))
      with h3 | h3
    · rw [detectStep_post_wait i st.1 _ h1 hb h3]
      refine ⟨bookkeeping_events i st.2, ?_⟩
      rw [show (({ bookkeeping i st.2 with
            event_samples := (bookkeeping i st.2).event_samples ++ [i.data] }
          : ProcState)).event_peak_db = st.2.event_peak_db
          from bookkeeping_peak i st.2]
      have hdb : i.db ≤ st.2.event_peak_db := by
        rw [bookkeeping_threshold] at h1
        exact le_of_lt (lt_of_lt_of_le h1 hpk)
      rw [max_eq_left hdb]
    · rw [detectStep_post_finalize i st.1 _ h1 hb h3] at hopen'
      rw [finalizeEvent_not_in_progress] at hopen'
      cases hopen'
  · rw [detectStep_continue i st.1 _ h1 hb]
    refine ⟨bookkeeping_events i st.2, ?_⟩
    rw [show (({ bookkeeping i st.2 with
          event_peak_db := max (bookkeeping i st.2).event_peak_db i.db,
          event_samples := (bookkeeping i st.2).event_samples ++ [i.data] }
        : ProcState)).event_peak_db
        = max (bookkeeping i st.2).event_peak_db i.db from rfl]
    rw [bookkeeping_peak]

/-- If `_finalize_event` on an open state appends some event to the persisted
log, that event's peak is the accumulated `event_peak_db`. -/
lemma finalizeEvent_emit (now : ℚ) (s : ProcState) (e : Event)
    (hopen : s.event_in_progress = true)
    (hev : (finalizeEvent now s).events = s.events ++ [e]) :
    e.peak_db = s.event_peak_db := by
  unfold finalizeEvent at hev
  rw [if_neg (by simp [hopen])] at hev
  dsimp only at hev
  split at hev
  · have := congrArg List.length hev
    simp at this
  · have hc := List.append_cancel_left hev
    have he : e
        = { start_time := s.event_start_time,
            duration := now - s.event_start_time,
            peak_db := s.event_peak_db,
            samples := s.event_samples } := by
      simpa using hc.symm
    rw [he]

/-- A step on an open event that emits an event `e` emits it with the
accumulated peak, and only happens on a sub-threshold chunk. -/
lemma step_open_emit (i : StepInput) (st : ℕ × ProcState) (e : Event)
    (hopen : st.2.event_in_progress = true)
    (hev : (processChunk i st).2.events = st.2.events ++ [e]) :
    e.peak_db = st.2.event_peak_db ∧ i.db < st.2.threshold_db := by
  have hb : (bookkeeping i st.2).event_in_progress = true := by
    rw [bookkeeping_in_progress]; exact hopen
  unfold processChunk at hev
  rcases lt_or_le i.db (bookkeeping i st.2).threshold_db with h1 | h1
  · rcases lt_or_le (st.1 + 1) (postEventSamplesNeeded (bookkeeping i st.2))
      with h3 | h3
    · rw [detectStep_post_wait i st.1 _ h1 hb h3] at hev
      rw [show (({ bookkeeping i st.2 with
            event_samples := (bookkeeping i st.2).event_samples ++ [i.data] }
          : ProcState)).events = st.2.events from bookkeeping_events i st.2] at hev
      have := congrArg List.length hev
      simp at this
    · rw [detectStep_post_finalize i st.1 _ h1 hb h3] at hev
      have hev' : (finalizeEvent i.t { bookkeeping i st.2 with
          event_samples := (bookkeeping i st.2).event_samples ++ [i.data] }).events
          = ({ bookkeeping i st.2 with
              event_samples := (bookkeeping i st.2).event_samples ++ [i.data] }
            : ProcState).events ++ [e] := by
        rw [show ({ bookkeeping i st.2 with
            event_samples := (bookkeeping i st.2).event_samples ++ [i.data] }
          : ProcState).events = st.2.events from bookkeeping_events i st.2]
        exact hev
      have hb2 : ({ bookkeeping i st.2 with
          event_samples := (bookkeeping i st.2).event_samples ++ [i.data] }
          : ProcState).event_in_progress = true := hb
      have hpk := finalizeEvent_emit i.t _ e hb2 hev'
      have hpk2 : e.peak_db = st.2.event_peak_db := by
        rw [hpk]
        exact bookkeeping_peak i st.2
      rw [bookkeeping_threshold] at h1
      exact ⟨hpk2, h1⟩
  · exfalso
    rcases Bool.eq_false_or_eq_true (bookkeeping i st.2).event_in_progress
      with hb' | hb'
    · rw [detectStep_continue i st.1 _ h1 hb'] at hev
      rw [show (({ bookkeeping i st.2 with
            event_peak_db := max (bookkeeping i st.2).event_peak_db i.db,
            event_samples := (bookkeeping i st.2).event_samples ++ [i.data] }
          : ProcState)).events = st.2.events from bookkeeping_events i st.2] at hev
      have := congrArg List.length hev
      simp at this
    · rw [hb] at hb'
      cases hb'

/-- Running the loop from an open event that stays open until the last step:
if an event is emitted, its peak is the running maximum of the accumulated
peak and the dB levels seen. -/
lemma runLoop_open_peak (is : List StepInput) : ∀ st : ℕ × ProcState,
    st.2.event_in_progress = true →
    st.2.threshold_db ≤ st.2.event_peak_db →
    (∀ n, n < is.length → (runLoop (is.take n) st).2.event_in_progress = true) →
    ∀ e, (runLoop is st).2.events = st.2.events ++ [e] →
    e.peak_db = List.foldl max st.2.event_peak_db (is.map StepInput.db) := by
  induction is with
  | nil =>
    intro st _ _ _ e hev
    have := congrArg List.length hev
    simp at this
  | cons i is ih =>
    intro st hopen hpk hpre e hev
    rcases Nat.eq_zero_or_pos is.length with hlen | hlen
    · have hisnil : is = [] := List.length_eq_zero.mp hlen
      subst hisnil
      rw [runLoop_cons, runLoop_nil] at hev
      obtain ⟨hpeak, hdb⟩ := step_open_emit i st e hopen hev
      have hle : i.db ≤ st.2.event_peak_db := le_of_lt (lt_of_lt_of_le hdb hpk)
      simp only [List.map_cons, List.map_nil, List.foldl_cons, List.foldl_nil]
      rw [max_eq_left hle]
      exact hpeak
    · have h1 : (runLoop ((i :: is).take 1) st).2.event_in_progress = true :=
        hpre 1 (by simpa using hlen)
      have h1' : (processChunk i st).2.event_in_progress = true := by
        simpa using h1
      obtain ⟨hev_eq, hpk_eq⟩ := step_open_open i st hopen hpk h1'
      have hpk' : (processChunk i st).2.threshold_db
          ≤ (processChunk i st).2.event_peak_db := by
        rw [processChunk_threshold, hpk_eq]
        exact le_trans hpk (le_max_left _ _)
      have hpre' : ∀ n, n < is.length →
          (runLoop (is.take n) (processChunk i st)).2.event_in_progress = true := by
        intro n hn
        have := hpre (n + 1) (by simpa using Nat.succ_lt_succ hn)
        simpa [List.take_succ_cons] using this
      have hev' : (runLoop is (processChunk i st)).2.events
          = (processChunk i st).2.events ++ [e] := by
        rw [hev_eq]
        rw [runLoop_cons] at hev
        exact hev
      have hmax := ih (processChunk i st) h1' hpk' hpre' e hev'
      rw [hmax, hpk_eq]
      simp [List.foldl_cons]

/-- C4: consider a run that opens an event on a crossing chunk `i₀` (detector
idle, `i₀.db` at or above threshold) and keeps it open through the chunks
`is`, until its last step finalizes and emits an event `e`.  Then `e.peak_db`
is exactly the maximum dB value observed from the crossing chunk up to the
last chunk before the finalize point: it is one of the observed dB values, and
no observed dB value exceeds it (in particular the sub-threshold post-roll
chunks never raise it). -/
theorem finalizedEvent_peak_is_max (s : ProcState) (pc : ℕ)
    (i₀ : StepInput) (is : List StepInput) (e : Event)
    (hidle : s.event_in_progress = false)
    (hcross : s.threshold_db ≤ i₀.db)
    (hopen : ∀ n, n < is.length →
      (runLoop (is.take n) (processChunk i₀ (pc, s))).2.event_in_progress = true)
    (hemit : (runLoop is (processChunk i₀ (pc, s))).2.events = s.events ++ [e]) :
    e.peak_db ∈ i₀.db :: is.map StepInput.db
    ∧ ∀ x ∈ i₀.db :: is.map StepInput.db, x ≤ e.peak_db := by
  have hstep : processChunk i₀ (pc, s)
      = (0, { bookkeeping i₀ s with
              event_in_progress := true,
              event_start_time := i₀.t,
              event_peak_db := i₀.db,
              event_samples := (bookkeeping i₀ s).audio_ring_buffer ++ [i₀.data] }) := by
    unfold processChunk
    exact detectStep_open_new i₀ pc (bookkeeping i₀ s)
      (by rw [bookkeeping_threshold]; exact hcross)
      (by rw [bookkeeping_in_progress]; exact hidle)
  have hopen1 : (processChunk i₀ (pc, s)).2.event_in_progress = true := by
    rw [hstep]
  have hpk1 : (processChunk i₀ (pc, s)).2.threshold_db
      ≤ (processChunk i₀ (pc, s)).2.event_peak_db := by
    rw [hstep]
    show (bookkeeping i₀ s).threshold_db ≤ i₀.db
    rw [bookkeeping_threshold]
    exact hcross
  have hev0 : (processChunk i₀ (pc, s)).2.events = s.events := by
    rw [hstep]
    show (bookkeeping i₀ s).events = s.events
    exact bookkeeping_events i₀ s
  have hev' : (runLoop is (processChunk i₀ (pc, s))).2.events
      = (processChunk i₀ (pc, s)).2.events ++ [e] := by
    rw [hev0]
    exact hemit
  have hmax := runLoop_open_peak is (processChunk i₀ (pc, s)) hopen1 hpk1 hopen e hev'
  have hpk0 : (processChunk i₀ (pc, s)).2.event_peak_db = i₀.db := by
    rw [hstep]
  rw [hpk0] at hmax
  rw [hmax]
  exact foldl_max_spec i₀.db (is.map StepInput.db)

/-- Concrete instance of C4: the burst run (60, 70, 0, 0 dB against threshold
50) emits an event whose peak 70 is the maximum of the observed levels. -/
theorem finalizedEvent_peak_is_max_witness :
    Event.peak_db burstEvent
      ∈ StepInput.db ⟨[1], 60, 0⟩ :: List.map StepInput.db
          [⟨[2], 70, 1⟩, ⟨[3], 0, 2⟩, ⟨[4], 0, 3⟩]
    ∧ ∀ x ∈ StepInput.db ⟨[1], 60, 0⟩ :: List.map StepInput.db
          [⟨[2], 70, 1⟩, ⟨[3], 0, 2⟩, ⟨[4], 0, 3⟩],
        x ≤ Event.peak_db burstEvent :=
  finalizedEvent_peak_is_max testState 0 ⟨[1], 60, 0⟩
    [⟨[2], 70, 1⟩, ⟨[3], 0, 2⟩, ⟨[4], 0, 3⟩] burstEvent
    rfl
    (by norm_num [testState])
    (by intro n hn
        have hn3 : n < 3 := by simpa using hn
        interval_cases n <;>
          norm_num [runLoop, processChunk, detectStep, bookkeeping, finalizeEvent,
            ringPush, postEventSamplesNeeded, CHUNK, RECORD_SECONDS, testState,
            Rat.floor])
    (by norm_num [runLoop, processChunk, detectStep, bookkeeping, finalizeEvent,
      ringPush, postEventSamplesNeeded, CHUNK, RECORD_SECONDS, testState,
      burstEvent, Rat.floor])

/-! ### C3: the decibel computation -/

/-- C3: `calculate_db` agrees with the spec's description on every chunk — 0
when the chunk is empty or its RMS is below 1, otherwise
`20·log10(RMS/32768) + 94 + calibration_offset` clamped to a minimum of 0 —
and its result is always a well-defined nonnegative real (total function, no
exception path). -/
theorem calculate_db_correct (calibration_offset : ℝ) (samples : List ℤ) :
    calculate_db calibration_offset samples
      = calculate_db_spec calibration_offset samples
    ∧ 0 ≤ calculate_db calibration_offset samples := by
  constructor
  · unfold calculate_db calculate_db_spec
    by_cases h0 : samples = []
    · simp [h0]
    · have hlen : ¬ samples.length = 0 := by
        simpa [List.length_eq_zero] using h0
      by_cases h1 : rms samples < 1
      · simp [hlen, h0, h1]
      · simp [hlen, h0, h1]
  · unfold calculate_db
    by_cases h0 : samples.length = 0
    · simp [h0]
    · by_cases h1 : rms samples < 1
      · simp [h0, h1]
      · simp only [h0, h1, if_false]
        exact le_max_left _ _

/-! ### C6, C7: the FFT low-frequency classifier -/

lemma totalEnergy_nonneg (samples : List ℤ) : 0 ≤ totalEnergy samples :=
  Finset.sum_nonneg fun _ _ =>
    pow_nonneg (AbsoluteValue.nonneg Complex.abs _) 2

/-- C6: on every nonempty accumulated event audio, `detect_low_frequency`
returns false when the total spectral energy is zero, and otherwise returns
true exactly when the energy in the 20-200 Hz band exceeds 0.4 of the total
energy. -/
theorem detect_low_frequency_correct (sr : ℚ) (samples : List ℤ)
    (hne : samples ≠ []) :
    (totalEnergy samples = 0 → detect_low_frequency sr samples = some false)
    ∧ (totalEnergy samples ≠ 0 →
        (detect_low_frequency sr samples = some true
          ↔ (0.4 : ℝ) < lowFreqEnergy sr samples / totalEnergy samples)) := by
  constructor
  · intro h0
    unfold detect_low_frequency
    rw [if_neg hne, if_neg (by rw [h0]; exact lt_irrefl 0)]
  · intro h0
    have hpos : 0 < totalEnergy samples :=
      lt_of_le_of_ne (totalEnergy_nonneg samples) (Ne.symm h0)
    unfold detect_low_frequency
    rw [if_neg hne, if_pos hpos]
    constructor
    · intro h
      by_contra hc
      rw [if_neg hc] at h
      simp at h
    · intro h
      rw [if_pos h]

/-- Concrete instance of C6 at the single-sample silent chunk `[0]`. -/
theorem detect_low_frequency_correct_witness :
    (totalEnergy [0] = 0 → detect_low_frequency 44100 [0] = some false)
    ∧ (totalEnergy [0] ≠ 0 →
        (detect_low_frequency 44100 [0] = some true
          ↔ (0.4 : ℝ) < lowFreqEnergy 44100 [0] / totalEnergy [0])) :=
  detect_low_frequency_correct 44100 [0] (by simp)

/-- C7, evaluated at the failing input: on the empty chunk `calculate_db`
returns 0 as required, but `detect_low_frequency` hits the error branch —
`np.fft.rfft` raises `ValueError` for zero data points (modelled as `none`) —
instead of returning a false classification, so the classifier is not
exception-free on every input. -/
theorem classifier_empty_input_raises (sr : ℚ) (calibration_offset : ℝ) :
    detect_low_frequency sr [] = none
    ∧ calculate_db calibration_offset [] = 0 := by
  constructor
  · unfold detect_low_frequency
    simp
  · unfold calculate_db
    simp

/-! ### C8: ring-buffer capacity -/

/-- C8 counterexample: at the source's own configuration (pre-roll 2 s, rate
44100 Hz — which is also the stream's rate until a device overrides it — and
chunk size 1024) the code's capacity `int(2*44100/1024) = 86` is not the
claimed `ceil(2*44100/1024) = 87`. -/
theorem ringCapacity_not_ceil :
    max_ring_buffer_samples = 86
    ∧ ringCapacitySpec preEventBufferSeconds RATE (CHUNK : ℚ) = 87
    ∧ max_ring_buffer_samples
      ≠ ringCapacitySpec preEventBufferSeconds RATE (CHUNK : ℚ) := by
  have h1 : max_ring_buffer_samples = 86 := by
    unfold max_ring_buffer_samples preEventBufferSeconds RATE CHUNK
    rw [Int.floor_eq_iff]
    norm_num
  have h2 : ringCapacitySpec preEventBufferSeconds RATE (CHUNK : ℚ) = 87 := by
    unfold ringCapacitySpec preEventBufferSeconds RATE CHUNK
    rw [Int.ceil_eq_iff]
    norm_num
  exact ⟨h1, h2, by rw [h1, h2]; decide⟩

/-- C8 amended: the capacity is `floor(pre_event_seconds · RATE / CHUNK)`
computed once from the constant default rate `RATE = 44100` (never from the
stream's detected rate), and with the defaults it stores strictly less than
`pre_event_seconds` of audio at 44100 Hz. -/
theorem ringCapacity_floor_default_rate :
    max_ring_buffer_samples = ⌊preEventBufferSeconds * RATE / (CHUNK : ℚ)⌋
    ∧ (max_ring_buffer_samples : ℚ) * (CHUNK : ℚ)
      < preEventBufferSeconds * RATE := by
  constructor
  · rfl
  · have h1 : max_ring_buffer_samples = 86 := by
      unfold max_ring_buffer_samples preEventBufferSeconds RATE CHUNK
      rw [Int.floor_eq_iff]
      norm_num
    rw [h1]
    unfold preEventBufferSeconds RATE CHUNK
    norm_num

/-! ### C9: the disabled wind filter is the identity -/

/-- C9: with the wind filter disabled, `apply_wind_filter` returns every
input unchanged, byte for byte, including the empty input, whatever the
enabled-branch filter and cutoff are. -/
theorem windFilter_disabled_identity (hp : ℚ → List ℤ → List ℤ)
    (cutoff_hz : ℚ) (x : List ℤ) :
    apply_wind_filter hp false cutoff_hz x = x := rfl
